import Mathlib

/-!
Verification of the analysis utilities of `include/triton/Analysis/Utility.h`:
the `ReduceOpHelper` constructor, the integer helpers `product`,
`highestPowOf2Divisor` and `nextPowOf2`, and the templated `CallGraph`
(build, walk/doWalk, getFuncData, mapFuncOp).

Machine integers are embedded as `Nat` with an explicit bit width `w`
(arithmetic wraps with `% 2 ^ w` exactly where the C++ can overflow);
`int64_t` tensor extents are embedded as `Int`.
-/

namespace TritonUtility

/-- Embeds `template <typename Int> Int product(llvm::ArrayRef<Int> arr)`:
`std::accumulate(arr.begin(), arr.end(), 1, std::multiplies{})`, i.e. a left
fold of multiplication with initial value 1. -/
def product {α : Type} [Mul α] [One α] (arr : List α) : α :=
  arr.foldl (· * ·) 1

/-- Embeds `template <typename T> T highestPowOf2Divisor(T n)` at bit width
`w`: `if (n == 0) return 1 << (sizeof(T)*8 - 2); return n & (~(n - 1));`.
For an unsigned `w`-bit integer, `~(n - 1)` is `(2^w - 1) - (n - 1)`. -/
def highestPowOf2Divisor (w n : Nat) : Nat :=
  if n = 0 then 2 ^ (w - 2)
  else n &&& ((2 ^ w - 1) - (n - 1))

/-- Embeds the bit-smearing loop of `nextPowOf2`:
`for (unsigned i = 1; i < sizeof(T) * 8; i <<= 1) n |= n >> i;`.
`i` starts at 1 and doubles, so the loop executes at most `w` iterations;
the `fuel` argument (instantiated with `w`) makes the recursion structural. -/
def smearLoop (w : Nat) : Nat → Nat → Nat → Nat
  | _, n, 0 => n
  | i, n, fuel + 1 => if i < w then smearLoop w (2 * i) (n ||| (n >>> i)) fuel else n

/-- Embeds `template <typename T> T nextPowOf2(T n)` at bit width `w`:
`if (n == 0) return 1; n--; <smear loop>; return n + 1;` where the final
increment wraps at `2 ^ w`. -/
def nextPowOf2 (w n : Nat) : Nat :=
  if n = 0 then 1 else (smearLoop w 1 (n - 1) w + 1) % 2 ^ w

/-- The state of the smearing loop after `t` iterations starting from `m`:
iteration `t` ors in a right shift by `2 ^ t`. -/
def smearIter (m : Nat) : Nat → Nat
  | 0 => m
  | t + 1 => smearIter m t ||| (smearIter m t >>> 2 ^ t)

/-- Embeds the layout/encoding descriptor (`Attribute srcEncoding`): opaque
value equality for the constructor's validation, plus the per-dimension
partition extents at each hierarchy level that the size queries consume. -/
structure LayoutDescriptor where
  order : List Nat
  laneExtents : List Nat
  warpExtents : List Nat
  blockExtents : List Nat
deriving DecidableEq

/-- Embeds `RankedTensorType`: a shape (`ArrayRef<int64_t>`) and an encoding. -/
structure RankedTensorType where
  shape : List Int
  encoding : LayoutDescriptor
deriving DecidableEq

/-- Embeds `triton::ReduceOp` as consumed by the constructor: an operation
identity, the reduction axis, a non-empty input-type sequence (`operands[0]`
is `firstInput`), and the element types (opaque identifiers). -/
structure ReduceOp where
  opId : Nat
  axis : Nat
  firstInput : RankedTensorType
  restInputs : List RankedTensorType
  elementTypes : List Nat

/-- `rop.getInputTypes()`: all input types, the first operand included. -/
def ReduceOp.getInputTypes (rop : ReduceOp) : List RankedTensorType :=
  rop.firstInput :: rop.restInputs

/-- A diagnostic produced by `rop.emitError()`, attributed to the operation. -/
structure Diag where
  attributedTo : Nat
  msg : String
deriving DecidableEq

/-- The state of a constructed `ReduceOpHelper`. -/
structure ReduceOpHelper where
  op : Nat
  axis : Nat
  srcShape : List Int
  srcEncoding : LayoutDescriptor
  srcElementTypes : List Nat
deriving DecidableEq

/-- Embeds the `ReduceOpHelper` constructor: the fields are populated from
the first operand's type, then every input type is compared against the first
operand's shape and encoding, emitting one diagnostic per mismatch. The
constructor runs to completion regardless and returns the helper together
with the emitted diagnostics. -/
def ReduceOpHelper.construct (rop : ReduceOp) : ReduceOpHelper × List Diag :=
  let firstTy := rop.firstInput
  let helper : ReduceOpHelper :=
    { op := rop.opId, axis := rop.axis, srcShape := firstTy.shape,
      srcEncoding := firstTy.encoding, srcElementTypes := rop.elementTypes }
  let diags := rop.getInputTypes.flatMap fun t =>
    (if t.shape ≠ firstTy.shape then [⟨rop.opId, "shape mismatch"⟩] else []) ++
    (if t.encoding ≠ firstTy.encoding then [⟨rop.opId, "encoding mismatch"⟩] else [])
  (helper, diags)

/-- Modelled from the spec: "Analysis does not proceed to produce a (possibly
meaningless) plan once a mismatch is found." A checking constructor that
withholds the helper when any input mismatches the first operand, for
comparison against `ReduceOpHelper.construct` above. -/
def ReduceOpHelper.constructChecked (rop : ReduceOp) :
    Option ReduceOpHelper × List Diag :=
  let firstTy := rop.firstInput
  let diags := rop.getInputTypes.flatMap fun t =>
    (if t.shape ≠ firstTy.shape then [⟨rop.opId, "shape mismatch"⟩] else []) ++
    (if t.encoding ≠ firstTy.encoding then [⟨rop.opId, "encoding mismatch"⟩] else [])
  if diags = [] then
    (some { op := rop.opId, axis := rop.axis, srcShape := firstTy.shape,
            srcEncoding := firstTy.encoding, srcElementTypes := rop.elementTypes }, [])
  else (none, diags)

/-- A concrete reduction whose two inputs have shapes `[4,8]` and `[4,16]`. -/
def mismatchLayout : LayoutDescriptor :=
  { order := [0, 1], laneExtents := [1, 32], warpExtents := [1, 4],
    blockExtents := [1, 1] }

def mismatchOp : ReduceOp :=
  { opId := 7, axis := 1,
    firstInput := { shape := [4, 8], encoding := mismatchLayout },
    restInputs := [{ shape := [4, 16], encoding := mismatchLayout }],
    elementTypes := [0, 0] }

/-- Modelled from the spec: the bodies of `getIntraWarpSize`,
`getInterWarpSize` and `getThreadsReductionAxis` live in
`lib/Analysis/Utility.cpp`, which is not among the analyzed sources (the
header only declares them). Per the spec they are the number of lane-level
and warp-level partitions covering the reduction axis, taken from the
layout's per-level extents at that axis. -/
def ReduceOpHelper.getIntraWarpSize (h : ReduceOpHelper) : Nat :=
  h.srcEncoding.laneExtents.getD h.axis 1

/-- Modelled from the spec: warp-level partitions covering the axis. -/
def ReduceOpHelper.getInterWarpSize (h : ReduceOpHelper) : Nat :=
  h.srcEncoding.warpExtents.getD h.axis 1

/-- Modelled from the spec: the total number of lanes spanning the reduction
axis — the product of the per-level partition extents covering the axis at
the warp and lane levels. -/
def ReduceOpHelper.getThreadsReductionAxis (h : ReduceOpHelper) : Nat :=
  product [h.srcEncoding.warpExtents.getD h.axis 1,
           h.srcEncoding.laneExtents.getD h.axis 1]

/-- Embeds `mlir::WalkOrder`, the timing of the update callbacks. -/
inductive WalkOrder where
  | PreOrder
  | PostOrder
deriving DecidableEq

/-- A callback application during one `walk`: the node-update callback on a
function, or the edge-update callback on a call site and its resolved
callee. -/
inductive WalkEvent (F C : Type) where
  | node : F → WalkEvent F C
  | edge : C → F → WalkEvent F C
deriving DecidableEq

/-- Outcome of a fueled traversal: normal completion with the emitted events
and the final visited set, the process abort of
`llvm::report_fatal_error("Cycle detected in call graph")`, or fuel
exhaustion (the C++ recursion has not returned within `fuel` nested calls). -/
inductive WalkOutcome (F C : Type) where
  | ok : List (WalkEvent F C) → List F → WalkOutcome F C
  | fatal : WalkOutcome F C
  | outOfFuel : WalkOutcome F C
deriving DecidableEq

/-- `DenseSet::erase` on the visited set (set semantics). -/
def setErase {F : Type} [DecidableEq F] (l : List F) (f : F) : List F :=
  l.filter fun x => decide (x ≠ f)

/-- The edge loop of `doWalk`: for each `(callOp, callee)` of the adjacency
list, the pre-order edge callback, the recursive walk of the callee (`rec`
is `doWalk` at the remaining fuel), then the post-order edge callback. -/
def doEdges {F C : Type} (rec : F → List F → WalkOutcome F C) (eo : WalkOrder) :
    List (C × F) → List F → WalkOutcome F C
  | [], visited => .ok [] visited
  | (c, callee) :: rest, visited =>
    let preE := if eo = WalkOrder.PreOrder then [WalkEvent.edge c callee] else []
    let postE := if eo = WalkOrder.PostOrder then [WalkEvent.edge c callee] else []
    match rec callee visited with
    | .ok evs visited2 =>
      match doEdges rec eo rest visited2 with
      | .ok evs2 visited3 => .ok (preE ++ evs ++ postE ++ evs2) visited3
      | res => res
    | res => res

/-- Embeds `CallGraph::doWalk`, fueled: the cycle check against the visited
set, the pre/post node-update callbacks around the edge loop, and the final
`visited.erase(funcOp)`. Note that the C++ body never inserts `funcOp` into
`visited`. -/
def doWalk {F C : Type} [DecidableEq F] (g : F → List (C × F))
    (eo no : WalkOrder) : Nat → F → List F → WalkOutcome F C
  | 0 => fun _ _ => .outOfFuel
  | fuel + 1 => fun f visited =>
    if f ∈ visited then .fatal
    else
      let pre := if no = WalkOrder.PreOrder then [WalkEvent.node f] else []
      let post := if no = WalkOrder.PostOrder then [WalkEvent.node f] else []
      match doEdges (doWalk g eo no fuel) eo (g f) visited with
      | .ok evs visited2 => .ok (pre ++ evs ++ post) (setErase visited2 f)
      | res => res

/-- Embeds the state of `CallGraph<T>`: the adjacency map (a DenseMap whose
`operator[]` defaults to an empty list, embedded as a total function), the
per-function data map, and the root list. -/
structure CallGraph (F C T : Type) where
  graph : F → List (C × F)
  funcMap : F → Option T
  roots : List F

/-- The root loop of `CallGraph::walk`: `doWalk` from each root in order,
threading the single visited set. -/
def walkRoots {F C : Type} [DecidableEq F] (g : F → List (C × F))
    (eo no : WalkOrder) (fuel : Nat) : List F → List F → WalkOutcome F C
  | [], visited => .ok [] visited
  | r :: rest, visited =>
    match doWalk g eo no fuel r visited with
    | .ok evs visited2 =>
      match walkRoots g eo no fuel rest visited2 with
      | .ok evs2 visited3 => .ok (evs ++ evs2) visited3
      | res => res
    | res => res

/-- Embeds `CallGraph::walk` (fueled), starting from an empty visited set. -/
def CallGraph.walk {F C T : Type} [DecidableEq F] (cg : CallGraph F C T)
    (eo no : WalkOrder) (fuel : Nat) : WalkOutcome F C :=
  walkRoots cg.graph eo no fuel cg.roots []

/-- Embeds `CallGraph::getFuncData`: the attached data when the function is
in the map, otherwise the explicit absent result (`nullptr`). -/
def CallGraph.getFuncData {F C T : Type} (cg : CallGraph F C T) (f : F) :
    Option T :=
  if (cg.funcMap f).isSome then cg.funcMap f else none

/-- Embeds `CallGraph::getRoots`. -/
def CallGraph.getRoots {F C T : Type} (cg : CallGraph F C T) : List F :=
  cg.roots

/-- Embeds the module a `CallGraph` is built over: the functions in module
walk order, and each call operation as (call site, enclosing function,
resolved callee — `none` when the callee cannot be statically resolved). -/
structure ModuleM (F C : Type) where
  funcs : List F
  callOps : List (C × F × Option F)

/-- Embeds `CallGraph::build`: one module walk appends an edge
`caller → callee` per statically resolvable call site and records the callee
as visited; a second walk pushes every function that never appeared as a
resolved callee onto `roots`. -/
def CallGraph.build {F C T : Type} [DecidableEq F] (m : ModuleM F C) :
    CallGraph F C T :=
  let g : F → List (C × F) := m.callOps.foldl
    (fun g op =>
      match op with
      | (c, caller, some callee) =>
        fun f => if f = caller then g f ++ [(c, callee)] else g f
      | _ => g)
    (fun _ => [])
  let callees := m.callOps.filterMap fun op => op.2.2
  { graph := g
    funcMap := fun _ => none
    roots := m.funcs.filter fun f => decide (f ∉ callees) }

/-- `mapFuncOp`'s root update: replace the first occurrence (the C++ loop
breaks after the first hit). -/
def replaceFirstRoot {F : Type} [DecidableEq F] : List F → F → F → List F
  | [], _, _ => []
  | x :: xs, fo, tf => if x = fo then tf :: xs else x :: replaceFirstRoot xs fo tf

/-- Embeds `CallGraph::mapFuncOp`: rewrite every edge whose target is
`funcOp` to point at `targetFuncOp`, copy `funcOp`'s (already rewritten)
adjacency list to `targetFuncOp`, replace the first occurrence of `funcOp`
in the roots, and copy `funcOp`'s data to `targetFuncOp`
(`DenseMap::operator[]` default-constructs an absent entry first). -/
def CallGraph.mapFuncOp {F C T : Type} [DecidableEq F] [Inhabited T]
    (cg : CallGraph F C T) (funcOp targetFuncOp : F) : CallGraph F C T :=
  let g1 : F → List (C × F) := fun f =>
    (cg.graph f).map fun e => if e.2 = funcOp then (e.1, targetFuncOp) else e
  let g2 : F → List (C × F) := fun f =>
    if f = targetFuncOp then g1 funcOp else g1 f
  let payload := (cg.funcMap funcOp).getD default
  let fm1 : F → Option T := fun f =>
    if f = funcOp then some payload else cg.funcMap f
  let fm2 : F → Option T := fun f =>
    if f = targetFuncOp then some payload else fm1 f
  { graph := g2, funcMap := fm2,
    roots := replaceFirstRoot cg.roots funcOp targetFuncOp }

/-- The node-update sequence of a completed walk, in callback order. -/
def walkNodes {F C T : Type} [DecidableEq F] (cg : CallGraph F C T)
    (eo no : WalkOrder) (fuel : Nat) : Option (List F) :=
  match CallGraph.walk cg eo no fuel with
  | .ok evs _ => some (evs.filterMap fun e =>
      match e with
      | WalkEvent.node f => some f
      | WalkEvent.edge _ _ => none)
  | _ => none

/-- The number of node-update callback invocations on `tgt` in an event
list. -/
def countNode {F C : Type} [DecidableEq F] [DecidableEq C]
    (evs : List (WalkEvent F C)) (tgt : F) : Nat :=
  evs.countP fun e => decide (e = WalkEvent.node tgt)

/-- How many times one completed walk ran the node-update callback on
`tgt`. -/
def walkNodeCount {F C T : Type} [DecidableEq F] [DecidableEq C]
    (cg : CallGraph F C T) (eo no : WalkOrder) (fuel : Nat) (tgt : F) :
    Option Nat :=
  match CallGraph.walk cg eo no fuel with
  | .ok evs _ => some (countNode evs tgt)
  | _ => none

/-- The number of call paths of length `< fuel` from `f` to `tgt` in the
graph `g`. -/
def pathCount {F C : Type} [DecidableEq F] (g : F → List (C × F)) (tgt : F) :
    Nat → F → Nat
  | 0, _ => 0
  | fuel + 1, f =>
    (if f = tgt then 1 else 0) + ((g f).map fun e => pathCount g tgt fuel e.2).sum

/-- The cyclic call graph `0 → 1 → 2 → 1` (root 0 enters the cycle). -/
def cycGraph : Nat → List (Nat × Nat) := fun f =>
  if f = 0 then [(100, 1)]
  else if f = 1 then [(101, 2)]
  else if f = 2 then [(102, 1)]
  else []

def cycCG : CallGraph Nat Nat Unit :=
  { graph := cycGraph, funcMap := fun _ => none, roots := [0] }

/-- The acyclic diamond `0 → 1 → 3` and `0 → 2 → 3`: function 3 is reachable
through two call paths. -/
def diamondGraph : Nat → List (Nat × Nat) := fun f =>
  if f = 0 then [(100, 1), (101, 2)]
  else if f = 1 then [(102, 3)]
  else if f = 2 then [(103, 3)]
  else []

def diamondCG : CallGraph Nat Nat Unit :=
  { graph := diamondGraph, funcMap := fun _ => none, roots := [0] }

/-- The event sequence of the pre/pre walk of the diamond. -/
def diamondEvents : List (WalkEvent Nat Nat) :=
  [.node 0, .edge 100 1, .node 1, .edge 102 3, .node 3,
   .edge 101 2, .node 2, .edge 103 3, .node 3]

/-- The straight-line module `0 → 1 → 2` and its built call graph. -/
def chainM : ModuleM Nat Nat :=
  { funcs := [0, 1, 2], callOps := [(10, 0, some 1), (11, 1, some 2)] }

def chainCG : CallGraph Nat Nat Unit := CallGraph.build chainM

/-- A graph with a payload attached to function 1 only. -/
def dataCG : CallGraph Nat Nat Nat :=
  { graph := fun _ => [],
    funcMap := fun f => if f = 1 then some 7 else none,
    roots := [] }

/-- A graph for exercising `mapFuncOp`: root 1 calls itself, 0 calls 1, and
2 is fresh. -/
def mapExampleCG : CallGraph Nat Nat Nat :=
  { graph := fun f => if f = 0 then [(100, 1)] else if f = 1 then [(102, 1)] else [],
    funcMap := fun f => if f = 1 then some 7 else none,
    roots := [1] }

example : product ([] : List Int) = 1 := by decide
example : product ([3, 4] : List Int) = 12 := by decide

/-- C8: `product` applied to an empty extent sequence returns 1 (the
multiplicative identity), and `product` agrees with the mathematical product
of the (integer) extents — all of it integer arithmetic by construction. -/
theorem product_empty_eq_one :
    product ([] : List Int) = 1 ∧ ∀ xs : List Int, product xs = xs.prod := by
  constructor
  · rfl
  · intro xs
    rw [product, List.prod_eq_foldl]
example : highestPowOf2Divisor 32 0 = 2 ^ 30 := by decide
example : highestPowOf2Divisor 32 12 = 4 := by decide
example : highestPowOf2Divisor 32 96 = 32 := by decide
example : nextPowOf2 32 0 = 1 := by decide
example : nextPowOf2 32 1 = 1 := by decide
example : nextPowOf2 32 5 = 8 := by decide
example : nextPowOf2 32 64 = 64 := by decide

lemma smearLoop_32_eq (m : Nat) : smearLoop 32 1 m 32 = smearIter m 5 := by
  simp [smearLoop, smearIter]

lemma testBit_smearIter (m : Nat) :
    ∀ t j, (smearIter m t).testBit j = true ↔
      ∃ d, d < 2 ^ t ∧ m.testBit (j + d) = true := by
  intro t
  induction t with
  | zero =>
    intro j
    constructor
    · intro h
      exact ⟨0, by norm_num, by simpa using h⟩
    · rintro ⟨d, hd, h⟩
      have hd0 : d = 0 := by omega
      subst hd0
      simpa using h
  | succ t ih =>
    intro j
    rw [smearIter, Nat.testBit_or, Bool.or_eq_true, Nat.testBit_shiftRight, ih, ih]
    constructor
    · rintro (⟨d, hd, h⟩ | ⟨d, hd, h⟩)
      · exact ⟨d, by rw [pow_succ]; omega, h⟩
      · refine ⟨2 ^ t + d, by rw [pow_succ]; omega, ?_⟩
        have hidx : j + (2 ^ t + d) = 2 ^ t + j + d := by omega
        rw [hidx]
        exact h
    · rintro ⟨d, hd, h⟩
      by_cases hc : d < 2 ^ t
      · exact Or.inl ⟨d, hc, h⟩
      · refine Or.inr ⟨d - 2 ^ t, by rw [pow_succ] at hd; omega, ?_⟩
        have hidx : 2 ^ t + j + (d - 2 ^ t) = j + d := by omega
        rw [hidx]
        exact h

lemma testBit_log2_self (m : Nat) (h : 0 < m) : m.testBit (Nat.log2 m) = true := by
  rw [Nat.testBit_to_div_mod]
  have h1 : 2 ^ Nat.log2 m ≤ m := Nat.log2_self_le (by omega)
  have h2 : m < 2 ^ (Nat.log2 m + 1) := Nat.lt_log2_self
  have hdiv : m / 2 ^ Nat.log2 m = 1 := by
    apply Nat.div_eq_of_lt_le (by omega)
    rw [pow_succ] at h2
    omega
  rw [hdiv]
  decide

lemma smearIter5_eq (m : Nat) (h1 : 0 < m) (h2 : m < 2 ^ 32) :
    smearIter m 5 = 2 ^ (Nat.log2 m + 1) - 1 := by
  have hL : Nat.log2 m < 32 := by
    by_contra hcon
    push_neg at hcon
    have hle : (2 : Nat) ^ 32 ≤ 2 ^ Nat.log2 m := Nat.pow_le_pow_right (by norm_num) hcon
    have hlog : 2 ^ Nat.log2 m ≤ m := Nat.log2_self_le (by omega)
    omega
  have hup : m < 2 ^ (Nat.log2 m + 1) := Nat.lt_log2_self
  apply Nat.eq_of_testBit_eq
  intro j
  rw [Nat.testBit_two_pow_sub_one]
  by_cases hj : j ≤ Nat.log2 m
  · have htrue : (smearIter m 5).testBit j = true := by
      rw [testBit_smearIter]
      refine ⟨Nat.log2 m - j, by norm_num; omega, ?_⟩
      have hidx : j + (Nat.log2 m - j) = Nat.log2 m := by omega
      rw [hidx]
      exact testBit_log2_self m h1
    rw [htrue]
    symm
    simpa using by omega
  · have hfalse : ¬ ((smearIter m 5).testBit j = true) := by
      rw [testBit_smearIter]
      rintro ⟨d, _, hbit⟩
      have hlt : m < 2 ^ (j + d) :=
        lt_of_lt_of_le hup (Nat.pow_le_pow_right (by norm_num) (by omega))
      rw [Nat.testBit_lt_two_pow hlt] at hbit
      exact Bool.false_ne_true hbit
    rw [Bool.not_eq_true] at hfalse
    rw [hfalse]
    symm
    simpa using by omega

/-- C9 (amended): `nextPowOf2` at 32 bits returns 1 on 0 and, for
`0 < n ≤ 2 ^ 31`, the least power of two that is `≥ n` (hence `n` itself when
`n` is a power of two); inputs above `2 ^ 31` overflow instead. -/
theorem nextPowOf2_correct_amended :
    nextPowOf2 32 0 = 1 ∧
    (∀ n, 0 < n → n ≤ 2 ^ 31 →
      ∃ k, nextPowOf2 32 n = 2 ^ k ∧ n ≤ 2 ^ k ∧ ∀ j, n ≤ 2 ^ j → 2 ^ k ≤ 2 ^ j) ∧
    (∀ k, k ≤ 31 → nextPowOf2 32 (2 ^ k) = 2 ^ k) := by
  have main : ∀ n, 0 < n → n ≤ 2 ^ 31 →
      ∃ k, nextPowOf2 32 n = 2 ^ k ∧ n ≤ 2 ^ k ∧ ∀ j, n ≤ 2 ^ j → 2 ^ k ≤ 2 ^ j := by
    intro n hn hn31
    by_cases h1 : n = 1
    · subst h1
      exact ⟨0, by decide, by norm_num, fun j _ => Nat.one_le_two_pow⟩
    · have hn2 : 2 ≤ n := by omega
      have hm1 : 0 < n - 1 := by omega
      have hm2 : n - 1 < 2 ^ 32 := by
        have : (2 : Nat) ^ 31 < 2 ^ 32 := by norm_num
        omega
      set L := Nat.log2 (n - 1) with hLdef
      have hL30 : L < 31 := by
        have hlow : 2 ^ L ≤ n - 1 := Nat.log2_self_le (by omega)
        by_contra hcon
        push_neg at hcon
        have : (2 : Nat) ^ 31 ≤ 2 ^ L := Nat.pow_le_pow_right (by norm_num) hcon
        omega
      have hval : nextPowOf2 32 n = 2 ^ (L + 1) := by
        rw [nextPowOf2, if_neg (by omega), smearLoop_32_eq,
          smearIter5_eq (n - 1) hm1 hm2, ← hLdef]
        have hpow : (0 : Nat) < 2 ^ (L + 1) := Nat.pos_pow_of_pos _ (by norm_num)
        have hlt : 2 ^ (L + 1) < 2 ^ 32 :=
          (Nat.pow_lt_pow_iff_right (by norm_num)).mpr (by omega)
        rw [Nat.sub_add_cancel hpow]
        exact Nat.mod_eq_of_lt hlt
      refine ⟨L + 1, hval, ?_, ?_⟩
      · have : n - 1 < 2 ^ (L + 1) := Nat.lt_log2_self
        omega
      · intro j hj
        have hlow : 2 ^ L ≤ n - 1 := Nat.log2_self_le (by omega)
        have hLj : 2 ^ L < 2 ^ j := by omega
        have : L < j := (Nat.pow_lt_pow_iff_right (by norm_num)).mp hLj
        exact Nat.pow_le_pow_right (by norm_num) (by omega)
  refine ⟨by decide, main, ?_⟩
  intro k hk
  obtain ⟨k', hval, hle, hmin⟩ :=
    main (2 ^ k) (Nat.pos_pow_of_pos _ (by norm_num))
      (Nat.pow_le_pow_right (by norm_num) hk)
  have h1 : 2 ^ k' ≤ 2 ^ k := hmin k le_rfl
  omega

/-- C9 witness: the amended theorem at `n = 5` (least power of two `≥ 5`). -/
theorem nextPowOf2_correct_amended_witness :
    0 < 5 ∧ ∃ k, nextPowOf2 32 5 = 2 ^ k ∧ 5 ≤ 2 ^ k ∧ ∀ j, 5 ≤ 2 ^ j → 2 ^ k ≤ 2 ^ j :=
  ⟨by norm_num, nextPowOf2_correct_amended.2.1 5 (by norm_num) (by norm_num)⟩

/-- C9 counterexample: `2 ^ 31 + 1` is representable in a 32-bit unsigned
integer, but `nextPowOf2` wraps to 0 on it, which is not a power of two
greater than or equal to the input. -/
theorem nextPowOf2_overflow_counterexample :
    nextPowOf2 32 (2 ^ 31 + 1) = 0 ∧ ¬ (2 ^ 31 + 1 ≤ nextPowOf2 32 (2 ^ 31 + 1)) := by
  constructor
  · decide
  · decide

lemma testBit_two_pow_sub :
    ∀ j w x, 0 < x → x ≤ 2 ^ w →
      (2 ^ w - x).testBit j = (decide (j < w) && !((x - 1).testBit j)) := by
  intro j
  induction j with
  | zero =>
    intro w x hx hxw
    cases w with
    | zero =>
      have hx1 : x = 1 := by simp at hxw; omega
      subst hx1
      simp
    | succ w' =>
      have hp : 2 ∣ 2 ^ (w' + 1) := dvd_pow_self 2 (Nat.succ_ne_zero w')
      rw [Nat.testBit_zero, Nat.testBit_zero]
      by_cases hpar : x % 2 = 1
      · have h1 : (2 ^ (w' + 1) - x) % 2 = 1 := by omega
        have h2 : (x - 1) % 2 = 0 := by omega
        simp [h1, h2]
      · have h1 : (2 ^ (w' + 1) - x) % 2 = 0 := by omega
        have h2 : (x - 1) % 2 = 1 := by omega
        simp [h1, h2]
  | succ j ih =>
    intro w x hx hxw
    cases w with
    | zero =>
      have hx1 : x = 1 := by simp at hxw; omega
      subst hx1
      simp
    | succ w' =>
      rw [Nat.testBit_succ, Nat.testBit_succ]
      have hpow : (2 : Nat) ^ (w' + 1) = 2 * 2 ^ w' := by
        rw [pow_succ]; ring
      have hdiv : (2 ^ (w' + 1) - x) / 2 = 2 ^ w' - ((x - 1) / 2 + 1) := by
        omega
      rw [hdiv]
      have hy1 : 0 < (x - 1) / 2 + 1 := by omega
      have hy2 : (x - 1) / 2 + 1 ≤ 2 ^ w' := by omega
      rw [ih w' ((x - 1) / 2 + 1) hy1 hy2]
      have hsub : (x - 1) / 2 + 1 - 1 = (x - 1) / 2 := by omega
      rw [hsub]
      have hd : decide (j < w') = decide (j + 1 < w' + 1) := by
        rw [decide_eq_decide]
        omega
      rw [hd]

lemma land_double (a b : Nat) : (2 * a) &&& (2 * b) = 2 * (a &&& b) := by
  apply Nat.eq_of_testBit_eq
  intro i
  cases i with
  | zero =>
    rw [Nat.testBit_and, Nat.testBit_zero, Nat.testBit_zero, Nat.testBit_zero]
    have h1 : 2 * a % 2 = 0 := by omega
    have h2 : 2 * b % 2 = 0 := by omega
    have h3 : 2 * (a &&& b) % 2 = 0 := by omega
    simp [h1, h2, h3]
  | succ j =>
    rw [Nat.testBit_and, Nat.testBit_succ, Nat.testBit_succ, Nat.testBit_succ]
    have h1 : 2 * a / 2 = a := by omega
    have h2 : 2 * b / 2 = b := by omega
    have h3 : 2 * (a &&& b) / 2 = a &&& b := by omega
    rw [h1, h2, h3, Nat.testBit_and]

lemma land_two_pow_sub_of_odd (w n : Nat) (h1 : n % 2 = 1) (h2 : n < 2 ^ w) :
    n &&& (2 ^ w - n) = 1 := by
  have hw : 0 < w := by
    rcases Nat.eq_zero_or_pos w with hw0 | hw0
    · subst hw0
      simp at h2
      omega
    · exact hw0
  have hn : 0 < n := by omega
  apply Nat.eq_of_testBit_eq
  intro i
  rw [Nat.testBit_and]
  cases i with
  | zero =>
    rw [Nat.testBit_zero, Nat.testBit_zero, Nat.testBit_zero]
    have hp : 2 ∣ 2 ^ w := dvd_pow_self 2 (by omega)
    have hsub : (2 ^ w - n) % 2 = 1 := by omega
    simp [h1, hsub]
  | succ j =>
    have hone : (1 : Nat).testBit (j + 1) = false := by
      rw [Nat.testBit_succ]
      norm_num
    rw [hone, testBit_two_pow_sub (j + 1) w n hn (le_of_lt h2)]
    have heq : (n - 1).testBit (j + 1) = n.testBit (j + 1) := by
      rw [Nat.testBit_succ, Nat.testBit_succ]
      have hhalf : (n - 1) / 2 = n / 2 := by omega
      rw [hhalf]
    rw [heq]
    cases hnb : n.testBit (j + 1) <;> simp [hnb]

lemma land_two_pow_sub_spec :
    ∀ n, 0 < n → ∀ w, n < 2 ^ w →
      ∃ k, n &&& (2 ^ w - n) = 2 ^ k ∧ 2 ^ k ∣ n ∧ ∀ j, 2 ^ j ∣ n → j ≤ k := by
  intro n
  induction n using Nat.strong_induction_on with
  | _ n ih =>
    intro hn w hw
    rcases Nat.even_or_odd n with heven | hodd
    · obtain ⟨m, hm⟩ := heven
      have hm2 : n = 2 * m := by omega
      have hmpos : 0 < m := by omega
      have hw1 : 1 ≤ w := by
        rcases Nat.eq_zero_or_pos w with h0 | h0
        · subst h0
          simp at hw
          omega
        · exact h0
      have hpow : (2 : Nat) ^ w = 2 * 2 ^ (w - 1) := by
        conv_lhs => rw [← Nat.sub_add_cancel hw1]
        rw [pow_succ]; ring
      have hmw : m < 2 ^ (w - 1) := by omega
      obtain ⟨k, hk1, hk2, hk3⟩ := ih m (by omega) hmpos (w - 1) hmw
      refine ⟨k + 1, ?_, ?_, ?_⟩
      · have hsplit : 2 ^ w - n = 2 * (2 ^ (w - 1) - m) := by omega
        rw [hsplit, hm2, land_double, hk1, pow_succ]
        ring
      · rw [hm2, pow_succ']
        exact mul_dvd_mul_left 2 hk2
      · intro j hj
        cases j with
        | zero => omega
        | succ j' =>
          have hj' : 2 ^ j' ∣ m := by
            rw [hm2, pow_succ'] at hj
            exact (mul_dvd_mul_iff_left (two_ne_zero)).mp hj
          exact Nat.succ_le_succ (hk3 j' hj')
    · refine ⟨0, ?_, one_dvd n, ?_⟩
      · rw [pow_zero]
        exact land_two_pow_sub_of_odd w n (Nat.odd_iff.mp hodd) hw
      · intro j hj
        cases j with
        | zero => exact le_refl 0
        | succ j' =>
          exfalso
          have h2d : 2 ∣ n := dvd_trans (dvd_pow_self 2 (Nat.succ_ne_zero j')) hj
          have := Nat.odd_iff.mp hodd
          omega

/-- C10: `highestPowOf2Divisor` at 32 bits returns `2 ^ 30` on the edge case
0, and for every `0 < n < 2 ^ 32` it returns the highest power-of-two divisor
of `n`. -/
theorem highestPowOf2Divisor_correct :
    highestPowOf2Divisor 32 0 = 2 ^ 30 ∧
    ∀ n, 0 < n → n < 2 ^ 32 →
      ∃ k, highestPowOf2Divisor 32 n = 2 ^ k ∧ 2 ^ k ∣ n ∧ ∀ j, 2 ^ j ∣ n → j ≤ k := by
  refine ⟨by decide, ?_⟩
  intro n hn hw
  have hone : (1 : Nat) ≤ 2 ^ 32 := Nat.one_le_two_pow
  have hrw : highestPowOf2Divisor 32 n = n &&& (2 ^ 32 - n) := by
    rw [highestPowOf2Divisor, if_neg (by omega)]
    congr 1
    omega
  rw [hrw]
  exact land_two_pow_sub_spec n hn 32 hw

/-- C10 witness: the theorem at `n = 12` (highest power-of-two divisor 4). -/
theorem highestPowOf2Divisor_correct_witness :
    0 < 12 ∧ ∃ k, highestPowOf2Divisor 32 12 = 2 ^ k ∧ 2 ^ k ∣ 12 ∧
      ∀ j, 2 ^ j ∣ 12 → j ≤ k :=
  ⟨by norm_num, highestPowOf2Divisor_correct.2 12 (by norm_num) (by norm_num)⟩

/-- C2 counterexample: on reduction inputs with shapes `[4,8]` vs `[4,16]`
the constructor reports the mismatch, but — contrary to the claim that no
usable plan is produced — it still returns the fully populated helper, where
the spec-checking constructor returns none. -/
theorem reduceOpHelper_mismatch_plan_counterexample :
    (ReduceOpHelper.construct mismatchOp).2 ≠ [] ∧
    (ReduceOpHelper.constructChecked mismatchOp).1 = none ∧
    some (ReduceOpHelper.construct mismatchOp).1 ≠
      (ReduceOpHelper.constructChecked mismatchOp).1 := by
  refine ⟨by decide, by decide, by decide⟩

/-- C2 (amended): for every reduction whose inputs mismatch the first
operand's shape or encoding, construction emits at least one diagnostic and
every diagnostic is attributed to the operation; construction does not crash
but completes, returning the helper populated from the first operand (so a
plan is still produced). -/
theorem reduceOpHelper_mismatch_diagnostics (rop : ReduceOp)
    (hmis : ∃ t ∈ rop.getInputTypes,
      t.shape ≠ rop.firstInput.shape ∨ t.encoding ≠ rop.firstInput.encoding) :
    (ReduceOpHelper.construct rop).2 ≠ [] ∧
    (∀ d ∈ (ReduceOpHelper.construct rop).2, d.attributedTo = rop.opId) ∧
    (ReduceOpHelper.construct rop).1 =
      { op := rop.opId, axis := rop.axis, srcShape := rop.firstInput.shape,
        srcEncoding := rop.firstInput.encoding,
        srcElementTypes := rop.elementTypes } := by
  obtain ⟨t, ht, hor⟩ := hmis
  refine ⟨?_, ?_, rfl⟩
  · apply List.ne_nil_of_mem (a := Diag.mk rop.opId
      (if t.shape ≠ rop.firstInput.shape then "shape mismatch" else "encoding mismatch"))
    simp only [ReduceOpHelper.construct, List.mem_flatMap]
    refine ⟨t, ht, ?_⟩
    by_cases hs : t.shape = rop.firstInput.shape
    · have he : t.encoding ≠ rop.firstInput.encoding := by tauto
      simp [hs, he]
    · simp [hs]
  · intro d hd
    simp only [ReduceOpHelper.construct, List.mem_flatMap] at hd
    obtain ⟨u, _, hdu⟩ := hd
    rcases List.mem_append.mp hdu with hin | hin <;>
      [skip; skip] <;>
      · split at hin
        · simp at hin
          subst hin
          rfl
        · simp at hin

/-- C2 witness: the amended theorem at the concrete mismatched reduction. -/
theorem reduceOpHelper_mismatch_diagnostics_witness :
    (∃ t ∈ mismatchOp.getInputTypes,
      t.shape ≠ mismatchOp.firstInput.shape ∨
      t.encoding ≠ mismatchOp.firstInput.encoding) ∧
    (ReduceOpHelper.construct mismatchOp).2 ≠ [] := by
  have hmis : ∃ t ∈ mismatchOp.getInputTypes,
      t.shape ≠ mismatchOp.firstInput.shape ∨
      t.encoding ≠ mismatchOp.firstInput.encoding := by decide
  exact ⟨hmis, (reduceOpHelper_mismatch_diagnostics mismatchOp hmis).1⟩

/-- C1: for every reduction helper, `getInterWarpSize * getIntraWarpSize`
equals `getThreadsReductionAxis`, the total number of lanes covering the
reduction axis. -/
theorem interWarp_mul_intraWarp_eq_threadsReductionAxis (h : ReduceOpHelper) :
    h.getInterWarpSize * h.getIntraWarpSize = h.getThreadsReductionAxis := by
  simp [ReduceOpHelper.getInterWarpSize, ReduceOpHelper.getIntraWarpSize,
    ReduceOpHelper.getThreadsReductionAxis, product]

lemma cyc_doWalk_oof (eo no : WalkOrder) :
    ∀ fuel : Nat,
      doWalk cycGraph eo no fuel 1 [] = WalkOutcome.outOfFuel ∧
      doWalk cycGraph eo no fuel 2 [] = WalkOutcome.outOfFuel := by
  intro fuel
  induction fuel with
  | zero => exact ⟨rfl, rfl⟩
  | succ n ih =>
    constructor
    · simp [doWalk, doEdges, cycGraph, ih.2]
    · simp [doWalk, doEdges, cycGraph, ih.1]

/-- C3 (behavior of the code at the failing input): on the call graph with
root 0 and the cycle `0 → 1 → 2 → 1`, `walk` neither completes nor reports
the fatal "Cycle detected in call graph" error at any fuel bound: `doWalk`
never inserts the current function into the visited set, so the cycle check
never fires and the recursion never returns. -/
theorem callGraph_walk_cycle_outOfFuel (eo no : WalkOrder) (fuel : Nat) :
    CallGraph.walk cycCG eo no fuel = WalkOutcome.outOfFuel := by
  cases fuel with
  | zero => rfl
  | succ n =>
    have h1 := (cyc_doWalk_oof eo no n).1
    simp [CallGraph.walk, walkRoots, cycCG, doWalk, doEdges, cycGraph, h1]

lemma countNode_append {F C : Type} [DecidableEq F] [DecidableEq C]
    (a b : List (WalkEvent F C)) (tgt : F) :
    countNode (a ++ b) tgt = countNode a tgt + countNode b tgt := by
  simp [countNode, List.countP_append]

lemma countNode_edge_if {F C : Type} [DecidableEq F] [DecidableEq C]
    (p : Prop) [Decidable p] (c : C) (f tgt : F) :
    countNode (if p then [WalkEvent.edge c f] else []) tgt = 0 := by
  split <;> simp [countNode]

lemma countNode_node_if {F C : Type} [DecidableEq F] [DecidableEq C]
    (p : Prop) [Decidable p] (f tgt : F) :
    countNode (if p then [WalkEvent.node f] else ([] : List (WalkEvent F C)))
        tgt =
      if p then (if f = tgt then 1 else 0) else 0 := by
  by_cases hp : p <;> by_cases hf : f = tgt <;> simp [countNode, hp, hf]

lemma doEdges_countNode {F C : Type} [DecidableEq F] [DecidableEq C]
    (rec : F → List F → WalkOutcome F C) (pc : F → Nat) (eo : WalkOrder)
    (tgt : F)
    (hrec : ∀ f vis evs vis2, rec f vis = .ok evs vis2 →
      countNode evs tgt = pc f) :
    ∀ (edges : List (C × F)) (vis : List F) (evs : List (WalkEvent F C))
      (vis2 : List F),
      doEdges rec eo edges vis = .ok evs vis2 →
      countNode evs tgt = (edges.map fun e => pc e.2).sum := by
  intro edges
  induction edges with
  | nil =>
    intro vis evs vis2 h
    simp only [doEdges, WalkOutcome.ok.injEq] at h
    rw [← h.1]
    rfl
  | cons e rest ih =>
    intro vis evs vis2 h
    obtain ⟨c, callee⟩ := e
    simp only [doEdges] at h
    split at h
    · rename_i evs1 vis3 hr
      split at h
      · rename_i evs2 vis4 he
        simp only [WalkOutcome.ok.injEq] at h
        rw [← h.1, countNode_append, countNode_append, countNode_append,
          countNode_edge_if, countNode_edge_if, hrec callee vis evs1 vis3 hr,
          ih vis3 evs2 vis4 he]
        simp
      · rename_i hne
        exact (hne evs vis2 h).elim
    · rename_i hne
      exact (hne evs vis2 h).elim

lemma doWalk_countNode {F C : Type} [DecidableEq F] [DecidableEq C]
    (g : F → List (C × F)) (eo no : WalkOrder) (tgt : F) :
    ∀ (fuel : Nat) (f : F) (vis : List F) (evs : List (WalkEvent F C))
      (vis2 : List F),
      doWalk g eo no fuel f vis = .ok evs vis2 →
      countNode evs tgt = pathCount g tgt fuel f := by
  intro fuel
  induction fuel with
  | zero =>
    intro f vis evs vis2 h
    simp [doWalk] at h
  | succ n ih =>
    intro f vis evs vis2 h
    simp only [doWalk] at h
    by_cases hv : f ∈ vis
    · rw [if_pos hv] at h
      simp at h
    · rw [if_neg hv] at h
      split at h
      · rename_i evs1 vis3 hd
        simp only [WalkOutcome.ok.injEq] at h
        have hsum := doEdges_countNode (doWalk g eo no n) (pathCount g tgt n)
          eo tgt (fun f' vis' evs' vis2' h' => ih f' vis' evs' vis2' h')
          (g f) vis evs1 vis3 hd
        rw [← h.1, countNode_append, countNode_append, hsum,
          countNode_node_if, countNode_node_if]
        simp only [pathCount]
        cases no <;> simp [Nat.add_comm]
      · rename_i hne
        exact (hne evs vis2 h).elim

lemma walkRoots_countNode {F C : Type} [DecidableEq F] [DecidableEq C]
    (g : F → List (C × F)) (eo no : WalkOrder) (fuel : Nat) (tgt : F) :
    ∀ (rootsL : List F) (vis : List F) (evs : List (WalkEvent F C))
      (vis2 : List F),
      walkRoots g eo no fuel rootsL vis = .ok evs vis2 →
      countNode evs tgt = (rootsL.map (pathCount g tgt fuel)).sum := by
  intro rootsL
  induction rootsL with
  | nil =>
    intro vis evs vis2 h
    simp only [walkRoots, WalkOutcome.ok.injEq] at h
    rw [← h.1]
    rfl
  | cons r rest ih =>
    intro vis evs vis2 h
    simp only [walkRoots] at h
    split at h
    · rename_i evs1 vis3 hr
      split at h
      · rename_i evs2 vis4 he
        simp only [WalkOutcome.ok.injEq] at h
        rw [← h.1, countNode_append,
          doWalk_countNode g eo no tgt fuel r vis evs1 vis3 hr,
          ih vis3 evs2 vis4 he]
        simp
      · rename_i hne
        exact (hne evs vis2 h).elim
    · rename_i hne
      exact (hne evs vis2 h).elim

/-- C4 (amended): whenever one `walk` completes, the node-update callback
runs on a function once per call path from a root to it (`pathCount`), so a
function reachable through several call paths or from several roots receives
one invocation per path — not exactly one invocation overall. -/
theorem walk_nodeCount_eq_pathCount {F C T : Type} [DecidableEq F]
    [DecidableEq C] (cg : CallGraph F C T) (eo no : WalkOrder) (fuel : Nat)
    (tgt : F) (evs : List (WalkEvent F C)) (vis : List F)
    (h : CallGraph.walk cg eo no fuel = .ok evs vis) :
    countNode evs tgt = (cg.roots.map (pathCount cg.graph tgt fuel)).sum :=
  walkRoots_countNode cg.graph eo no fuel tgt cg.roots [] evs vis h

/-- C4 witness: the amended theorem at the diamond graph — function 3 is
counted once per its two call paths. -/
theorem walk_nodeCount_eq_pathCount_witness :
    CallGraph.walk diamondCG WalkOrder.PreOrder WalkOrder.PreOrder 10 =
      WalkOutcome.ok diamondEvents [] ∧
    countNode diamondEvents 3 =
      (diamondCG.roots.map (pathCount diamondCG.graph 3 10)).sum :=
  ⟨by decide,
   walk_nodeCount_eq_pathCount diamondCG WalkOrder.PreOrder WalkOrder.PreOrder
     10 3 diamondEvents [] (by decide)⟩

/-- C4 counterexample: in the acyclic diamond call graph `0→1→3, 0→2→3`, one
walk invokes the node-update callback on function 3 twice — not exactly
once, although the graph is acyclic and 3 is merely reachable through two
call paths. -/
theorem walk_diamond_node_twice :
    walkNodeCount diamondCG WalkOrder.PreOrder WalkOrder.PreOrder 10 3 =
      some 2 ∧
    walkNodeCount diamondCG WalkOrder.PreOrder WalkOrder.PreOrder 10 3 ≠
      some 1 := by
  exact ⟨by decide, by decide⟩

lemma replaceFirstRoot_mem {F : Type} [DecidableEq F] (fo tf : F) :
    ∀ l : List F, fo ∈ l → tf ∈ replaceFirstRoot l fo tf := by
  intro l
  induction l with
  | nil =>
    intro h
    simp at h
  | cons x xs ih =>
    intro h
    by_cases hx : x = fo
    · simp [replaceFirstRoot, hx]
    · rw [replaceFirstRoot, if_neg hx]
      rcases List.mem_cons.mp h with h1 | h2
      · exact absurd h1.symm hx
      · exact List.mem_cons_of_mem x (ih h2)

lemma replaceFirstRoot_not_mem {F : Type} [DecidableEq F] (fo tf : F)
    (hne : fo ≠ tf) :
    ∀ l : List F, l.count fo ≤ 1 → fo ∉ replaceFirstRoot l fo tf := by
  intro l
  induction l with
  | nil =>
    intro _ h
    simp [replaceFirstRoot] at h
  | cons x xs ih =>
    intro hcount h
    rw [List.count_cons] at hcount
    by_cases hx : x = fo
    · subst hx
      rw [replaceFirstRoot, if_pos rfl] at h
      rcases List.mem_cons.mp h with h1 | h2
      · exact hne h1
      · have hzero : xs.count x = 0 := by
          simp at hcount
          omega
        exact (List.count_eq_zero.mp hzero) h2
    · rw [replaceFirstRoot, if_neg hx] at h
      rcases List.mem_cons.mp h with h1 | h2
      · exact hx h1.symm
      · refine ih ?_ h2
        have : ¬ (fo == x) = true := by
          simp
          exact fun hc => hx hc.symm
        simp [this] at hcount
        omega

/-- C5: after `mapFuncOp fo tf` on a graph where `tf` is fresh, `fo` carries
a payload and occurs at most once among the roots: every edge that pointed at
`fo` now points at `tf`, no edge points at `fo` any more, `tf` carries
`fo`'s prior (retargeted) adjacency list and `fo`'s prior payload, `fo` is
replaced by `tf` in the root set if it was a root, and `fo` is gone from the
roots — so it is no longer reachable under its old identity. -/
theorem mapFuncOp_correct {F C T : Type} [DecidableEq F] [Inhabited T]
    (cg : CallGraph F C T) (fo tf : F) (d : T)
    (hne : fo ≠ tf)
    (hfresh : cg.graph tf = [])
    (hpay : cg.funcMap fo = some d)
    (hroot : cg.roots.count fo ≤ 1) :
    (∀ f c, (c, fo) ∈ cg.graph f → (c, tf) ∈ (cg.mapFuncOp fo tf).graph f) ∧
    (∀ f c x, (c, x) ∈ (cg.mapFuncOp fo tf).graph f → x ≠ fo) ∧
    ((cg.mapFuncOp fo tf).graph tf =
      (cg.graph fo).map fun e => if e.2 = fo then (e.1, tf) else e) ∧
    ((cg.mapFuncOp fo tf).funcMap tf = some d) ∧
    (fo ∈ cg.roots → tf ∈ (cg.mapFuncOp fo tf).roots) ∧
    fo ∉ (cg.mapFuncOp fo tf).roots := by
  refine ⟨?_, ?_, ?_, ?_, ?_, ?_⟩
  · intro f c hmem
    by_cases hf : f = tf
    · subst hf
      rw [hfresh] at hmem
      simp at hmem
    · simp only [CallGraph.mapFuncOp, if_neg hf]
      exact List.mem_map.mpr ⟨(c, fo), hmem, by simp⟩
  · intro f c x hmem
    by_cases hf : f = tf <;>
      · simp only [CallGraph.mapFuncOp, hf] at hmem
        simp at hmem
        obtain ⟨a, b, hab, heq⟩ := hmem
        by_cases hb : b = fo
        · simp [hb] at heq
          intro hx
          exact hne (heq.2.trans hx).symm
        · simp [hb] at heq
          intro hx
          exact hb (heq.2.trans hx)
  · simp [CallGraph.mapFuncOp]
  · simp [CallGraph.mapFuncOp, hpay]
  · intro hmem
    exact replaceFirstRoot_mem fo tf cg.roots hmem
  · exact replaceFirstRoot_not_mem fo tf hne cg.roots hroot

/-- C5 witness: the theorem at a concrete graph — function 1 (with payload 7,
a root, self-calling, called by 0) is remapped to the fresh function 2. -/
theorem mapFuncOp_correct_witness :
    ((1 : Nat) ≠ 2 ∧ mapExampleCG.graph 2 = [] ∧
      mapExampleCG.funcMap 1 = some 7 ∧ mapExampleCG.roots.count 1 ≤ 1) ∧
    ((CallGraph.mapFuncOp mapExampleCG 1 2).funcMap 2 = some 7 ∧
      (1 : Nat) ∉ (CallGraph.mapFuncOp mapExampleCG 1 2).roots ∧
      (2 : Nat) ∈ (CallGraph.mapFuncOp mapExampleCG 1 2).roots) := by
  have h := mapFuncOp_correct mapExampleCG 1 2 7 (by decide) rfl rfl (by decide)
  exact ⟨⟨by decide, rfl, rfl, by decide⟩,
    h.2.2.2.1, h.2.2.2.2.2, h.2.2.2.2.1 (by decide)⟩

/-- C6: over the chain module `0 → 1 → 2`: the built graph's walk with
pre-order node updates visits the nodes in order 0,1,2 (for either edge
timing); with post-order node updates in order 2,1,0; `getRoots` returns
exactly `[0]`; and in general every function of a module that appears
nowhere as a resolved callee is a root of the built graph. -/
theorem callGraph_chain_walk_and_roots :
    (∀ eo, walkNodes chainCG eo WalkOrder.PreOrder 10 = some [0, 1, 2]) ∧
    (∀ eo, walkNodes chainCG eo WalkOrder.PostOrder 10 = some [2, 1, 0]) ∧
    chainCG.getRoots = [0] ∧
    ∀ (m : ModuleM Nat Nat) (f : Nat), f ∈ m.funcs →
      (∀ op ∈ m.callOps, op.2.2 ≠ some f) →
      f ∈ (CallGraph.build (T := Unit) m).getRoots := by
  refine ⟨?_, ?_, by decide, ?_⟩
  · intro eo
    cases eo <;> decide
  · intro eo
    cases eo <;> decide
  · intro m f hf hnc
    have hnot : f ∉ m.callOps.filterMap fun op => op.2.2 := by
      intro hmem
      obtain ⟨op, hop, hsome⟩ := List.mem_filterMap.mp hmem
      exact hnc op hop hsome
    simp [CallGraph.build, CallGraph.getRoots, List.mem_filter, hf, hnot]

/-- C6 witness: the general root characterization applied to a concrete
single-function module with one unresolved call. -/
theorem callGraph_chain_walk_and_roots_witness :
    ((5 : Nat) ∈ (ModuleM.mk [5] [(9, 5, none)] : ModuleM Nat Nat).funcs) ∧
    (5 : Nat) ∈
      (CallGraph.build (T := Unit)
        (ModuleM.mk [5] [(9, 5, none)] : ModuleM Nat Nat)).getRoots :=
  ⟨by decide,
   callGraph_chain_walk_and_roots.2.2.2 (ModuleM.mk [5] [(9, 5, none)]) 5
     (by decide) (by decide)⟩

/-- C7: `getFuncData` returns the attached payload when the function is
present in the data map, and the explicit absent result (`none`, the
embedding of the non-fatal `nullptr` return) when it was never analyzed. -/
theorem getFuncData_present_absent {F C T : Type} (cg : CallGraph F C T)
    (f : F) :
    (∀ d, cg.funcMap f = some d → cg.getFuncData f = some d) ∧
    (cg.funcMap f = none → cg.getFuncData f = none) := by
  constructor
  · intro d hd
    simp [CallGraph.getFuncData, hd]
  · intro hd
    simp [CallGraph.getFuncData, hd]

/-- C7 witness: the payload attached to function 1 is returned; function 0,
never analyzed, yields the absent result. -/
theorem getFuncData_present_absent_witness :
    (dataCG.funcMap 1 = some 7 ∧ dataCG.getFuncData 1 = some 7) ∧
    (dataCG.funcMap 0 = none ∧ dataCG.getFuncData 0 = none) :=
  ⟨⟨rfl, (getFuncData_present_absent dataCG 1).1 7 rfl⟩,
   ⟨rfl, (getFuncData_present_absent dataCG 0).2 rfl⟩⟩

end TritonUtility
